import Mathlib

/-!
Verification of the content-loading pipeline in src/lib/contentTypeLoader.js:
getContentBySlug and getAllContentFromDirectory. The JavaScript code is
shallowly embedded: the filesystem (fs.readFileSync / fs.readdirSync) and the
external MDX compiler (next-mdx-remote serialize, configured by mdxOptions)
are an explicit environment, gray-matter and the JS Date / date-fns runtime
are modelled executable functions, and JS exceptions are Except values
carrying the exception message.
-/

/-! ### Model of the JavaScript Date runtime

A JS Date holds a time value: a finite number, or NaN for an input that does
not parse (an Invalid Date). Time values are modelled as Option Nat, none
standing for NaN. The number assigned to a calendar date is a monotone
encoding of (year, month, day); only validity and relative order of time
values are observable in the loader, so the scale of the encoding is
irrelevant. Date.parse is modelled on the two string families the pipeline
produces or stores: ISO date strings YYYY-MM-DD from front matter, and the
rendering produced by toUTCString below. -/

def digitVal? (c : Char) : Option Nat :=
  if 48 ≤ c.toNat ∧ c.toNat ≤ 57 then some (c.toNat - 48) else none

def natDigitsAux : Nat → Nat → List Char → List Char
  | 0, _, acc => acc
  | fuel + 1, n, acc =>
    let d := Char.ofNat (48 + n % 10)
    if n < 10 then d :: acc else natDigitsAux fuel (n / 10) (d :: acc)

def natToStr (n : Nat) : String := ⟨natDigitsAux (n + 1) n []⟩

def digitsToNatAux : List Char → Nat → Option Nat
  | [], acc => some acc
  | c :: cs, acc =>
    match digitVal? c with
    | some d => digitsToNatAux cs (acc * 10 + d)
    | none => none

def digitsToNat : List Char → Option Nat
  | [] => none
  | c :: cs => digitsToNatAux (c :: cs) 0

/-- Parse of the stand-in rendering produced by `toUTCStringJS` below. -/
def parseGMTStamp (cs : List Char) : Option Nat :=
  match cs with
  | 'G' :: 'M' :: 'T' :: '<' :: rest =>
    match rest.reverse with
    | '>' :: revDigits => digitsToNat revDigits.reverse
    | _ => none
  | _ => none

/-- Parse of an ISO calendar date YYYY-MM-DD, to a monotone encoding. -/
def parseISODate (cs : List Char) : Option Nat :=
  match cs with
  | [y1, y2, y3, y4, '-', m1, m2, '-', d1, d2] =>
    match digitVal? y1, digitVal? y2, digitVal? y3, digitVal? y4,
          digitVal? m1, digitVal? m2, digitVal? d1, digitVal? d2 with
    | some a, some b, some c, some d, some e, some f, some g, some h =>
      let y := ((a * 10 + b) * 10 + c) * 10 + d
      let mo := e * 10 + f
      let da := g * 10 + h
      if 1 ≤ mo ∧ mo ≤ 12 ∧ 1 ≤ da ∧ da ≤ 31 then
        some ((y * 12 + (mo - 1)) * 31 + (da - 1))
      else none
    | _, _, _, _, _, _, _, _ => none
  | _ => none

/-- Date.parse as the loader exercises it. Any string outside the modelled
families yields none, that is, an Invalid Date (for example "not-a-date",
the empty string, or the literal "Invalid Date"). -/
def jsDateParse (s : String) : Option Nat :=
  match parseGMTStamp s.data with
  | some t => some t
  | none => parseISODate s.data

/-- Date.prototype.toUTCString: per ECMA-262 it returns the literal string
"Invalid Date" when the time value is NaN, and otherwise a rendering of the
time value (RFC-1123 in the runtime; here a transparent injective rendering,
since no claim depends on the exact characters). -/
def toUTCStringJS : Option Nat → String
  | none => "Invalid Date"
  | some t => "GMT<" ++ natToStr t ++ ">"

/-! ### Front-matter values and the gray-matter model -/

/-- An element of a front-matter sequence: a scalar string, or a normalized
tag record as produced by the Tag Normalizer. The content files only ever
nest one level (a sequence of scalars), so sequence elements are leaves. -/
inductive FMLeaf where
  | str (s : String)
  | tag (name id : String)
deriving DecidableEq, Repr

/-- A front-matter metadata value: a scalar string, or a sequence. -/
inductive FMValue where
  | str (s : String)
  | list (xs : List FMLeaf)
deriving DecidableEq, Repr

/-- JS object field lookup on a parsed metadata object (keys are unique). -/
def objGet : List (String × FMValue) → String → Option FMValue
  | [], _ => none
  | (k, v) :: rest, key => if k = key then some v else objGet rest key

/-- JS object field assignment: an existing key keeps its position and gets
the new value, a fresh key is appended. This is the effect of the object
literal spread in the source, where later entries overwrite earlier ones. -/
def objSet : List (String × FMValue) → String → FMValue → List (String × FMValue)
  | [], key, v => [(key, v)]
  | (k, w) :: rest, key, v =>
    if k = key then (key, v) :: rest else (k, w) :: objSet rest key v

/-- Split a metadata line at the first ": " into key and value text. -/
def splitKV : List Char → Option (List Char × List Char)
  | [] => none
  | ':' :: ' ' :: rest => some ([], rest)
  | c :: cs =>
    match splitKV cs with
    | some (k, v) => some (c :: k, v)
    | none => none

def splitLines : List Char → List (List Char)
  | [] => [[]]
  | '\n' :: rest => [] :: splitLines rest
  | c :: cs =>
    match splitLines cs with
    | [] => [[c]]
    | g :: gs => (c :: g) :: gs

/-- Split on the two-character separator ", " inside an inline sequence. -/
def splitCommaSp : List Char → List (List Char)
  | [] => [[]]
  | ',' :: ' ' :: rest => [] :: splitCommaSp rest
  | c :: cs =>
    match splitCommaSp cs with
    | [] => [[c]]
    | g :: gs => (c :: g) :: gs

/-- A YAML value on the subset the content files use: an inline sequence
in square brackets, or a scalar taken verbatim. -/
def parseFMValue (v : List Char) : FMValue :=
  match v with
  | '[' :: rest =>
    match rest.reverse with
    | ']' :: revInner =>
      let inner := revInner.reverse
      if inner.isEmpty then FMValue.list []
      else FMValue.list ((splitCommaSp inner).map (fun t => FMLeaf.str ⟨t⟩))
    | _ => FMValue.str ⟨v⟩
  | _ => FMValue.str ⟨v⟩

def parseMetaLine (line : List Char) : Option (String × FMValue) :=
  (splitKV line).map (fun kv => (⟨kv.1⟩, parseFMValue kv.2))

/-- js-yaml over the lines of a front-matter block, on the modelled subset:
a sequence of mapping lines key: value, with blank lines permitted. A line
outside this form makes the parse fail, as js-yaml raises a YAMLException
on metadata that is not well-formed YAML (wider YAML - comments, nested
collections, scalar-only documents - is outside the modelled subset; no
content file uses it). -/
def parseMetaLines : List (List Char) → Except String (List (String × FMValue))
  | [] => Except.ok []
  | line :: rest =>
    if line.isEmpty then parseMetaLines rest
    else
      match parseMetaLine line with
      | some kv => (parseMetaLines rest).map (fun kvs => kv :: kvs)
      | none => Except.error "YAMLException: could not parse front matter"

def parseMeta (block : List Char) : Except String (List (String × FMValue)) :=
  parseMetaLines (splitLines block)

/-- First occurrence of the closing front-matter delimiter: the four
characters newline dash dash dash, as gray-matter searches for the string
close = newline plus the delimiter. Returns the text before it and the
text after those four characters, or none when the block never closes. -/
def breakOnDelim : List Char → Option (List Char × List Char)
  | '\n' :: '-' :: '-' :: '-' :: rest => some ([], rest)
  | [] => none
  | c :: cs =>
    match breakOnDelim cs with
    | some (pre, post) => some (c :: pre, post)
    | none => none

/-- After the closing delimiter, gray-matter strips one leading carriage
return and then one leading newline from the content. -/
def stripNl (cs : List Char) : List Char :=
  let cs1 := match cs with
    | '\r' :: t => t
    | _ => cs
  match cs1 with
  | '\n' :: t => t
  | _ => cs1

/-- gray-matter: splits raw file text into metadata and body. Faithful
points of its parse: (i) text that does not open with the delimiter line
returns an empty metadata object with the whole original text as content,
never throwing; (ii) a further delimiter character right after the opening
delimiter also means no front matter, returning the original text; (iii)
the closing delimiter is the next occurrence of newline plus "---"; when
it is missing, closeIndex falls to the end of the string, so the WHOLE
remainder becomes the metadata block and the content is set to the empty
string, not the original text; (iv) the metadata block is handed to the
YAML parser, whose exception propagates out of matter. -/
def matter (text : String) : Except String (List (String × FMValue) × String) :=
  match text.data with
  | '-' :: '-' :: '-' :: '\n' :: rest =>
    match rest with
    | '-' :: _ => Except.ok ([], text)
    | _ =>
      match breakOnDelim rest with
      | some (metaBlock, post) =>
        (parseMeta metaBlock).map (fun data => (data, ⟨stripNl post⟩))
      | none => (parseMeta rest).map (fun data => (data, ""))
  | _ => Except.ok ([], text)

/-! ### Tag normalization and the remaining per-record steps -/

def slugifyTag (s : String) : String :=
  ⟨s.data.map (fun c => if c = ' ' then '-' else c.toLower)⟩

/-- Modelled from the spec: parseTag lives in src/lib/tags.js, which is not
present under src/. Per spec 4.2 the Tag Normalizer is total and
deterministic: a bare string tag is wrapped into a record with the string as
its label and a slugified form as a derived identifier, an already
structured tag passes through, and any unrecognized shape normalizes to a
best-effort fallback record rather than failing. -/
def parseTag : FMLeaf → FMLeaf
  | FMLeaf.str s => FMLeaf.tag s (slugifyTag s)
  | FMLeaf.tag n i => FMLeaf.tag n i

/-- The expression data?.tags?.map((tag) => parseTag(tag)) || [] from the
source: an absent tags field yields the empty array (undefined || [] is []),
an array maps elementwise through parseTag (an empty array is truthy, so it
is kept), and a scalar raises a TypeError, since only arrays have map. -/
def tagsJS : Option FMValue → Except String (List FMLeaf)
  | none => Except.ok []
  | some (FMValue.list ts) => Except.ok (ts.map parseTag)
  | some _ => Except.error "TypeError: data.tags.map is not a function"

/-- new Date(x) over the values a front-matter field can hold: a string is
parsed by the Date runtime; an absent field (new Date(undefined)) and any
non-string value are modelled as an Invalid Date. -/
def jsNewDate : Option FMValue → Option Nat
  | some (FMValue.str s) => jsDateParse s
  | _ => none

/-! ### The content records and the loader -/

/-- The opaque serialized MDX body returned by the external compiler. -/
structure MDXSource where
  code : String
deriving DecidableEq, Repr

structure ContentRecord where
  slug : String
  frontmatter : List (String × FMValue)
  content : String
  source : Option MDXSource
deriving DecidableEq, Repr

/-- The ambient world of one invocation: the filesystem (readFileSync
returning file contents or failing, readdirSync listing filenames) and the
external MDX compiler (serialize with the fixed mdxOptions), which receives
only the body text and either returns the compiled form or fails with its
own error message. -/
structure Env where
  fs : String → Option String
  readdir : String → List String
  serialize : String → Except String MDXSource

/-- The regex replace slug.replace of a trailing ".mdx": strips one
occurrence of the suffix if present. -/
def realSlugOf (slug : String) : String :=
  if slug.data.reverse.take 4 = ['x', 'd', 'm', '.'] then
    ⟨slug.data.take (slug.data.length - 4)⟩
  else slug

/-- join(directory, realSlug + ".mdx") for plain relative segments. -/
def contentPath (directory slug : String) : String :=
  directory ++ "/" ++ realSlugOf slug ++ ".mdx"

/-- getContentBySlug from src/lib/contentTypeLoader.js: strip the slug, read
the file, split front matter, parse the date, compile the body, normalize
tags, and assemble the record. The spread in the returned object literal
assigns date, tags and type after the raw metadata, so those three entries
overwrite same-named raw keys. The optional chain on the parsed date never
short-circuits, because new Date always returns a Date object (never null or
undefined); hence toUTCString runs even on an Invalid Date, and the
nullish-coalescing fallback to undefined is dead code. -/
def getContentBySlug (env : Env) (slug directory type : String) :
    Except String ContentRecord :=
  match env.fs (contentPath directory slug) with
  | none =>
    Except.error ("ENOENT: no such file or directory, open " ++ contentPath directory slug)
  | some fileContents =>
    match matter fileContents with
    | Except.error e => Except.error e
    | Except.ok (data, content) =>
      match env.serialize content with
      | Except.error e => Except.error e
      | Except.ok mdxSource =>
        match tagsJS (objGet data "tags") with
        | Except.error e => Except.error e
        | Except.ok tags =>
          Except.ok
            { slug := realSlugOf slug
              frontmatter :=
                objSet (objSet (objSet data "date"
                    (FMValue.str (toUTCStringJS (jsNewDate (objGet data "date")))))
                  "tags" (FMValue.list tags)) "type" (FMValue.str type)
              content := content
              source := some mdxSource }

/-! ### The directory aggregation -/

/-- compareDesc from date-fns composed with the ECMAScript SortCompare
coercion: getTime() of an Invalid Date is NaN, a NaN difference makes both
sign tests false so compareDesc returns NaN, and Array#sort treats a NaN
comparator result as 0. Hence any comparison involving an invalid date is 0. -/
def compareDescJS : Option Nat → Option Nat → Int
  | some x, some y => if y < x then -1 else if x < y then 1 else 0
  | _, _ => 0

/-- new Date(a?.frontmatter?.date).getTime() as the sort comparator sees one
record: the date field it reads is the string the builder stored. -/
def recordDate (r : ContentRecord) : Option Nat :=
  jsNewDate (objGet r.frontmatter "date")

def dateKey (r : ContentRecord) : Nat := (recordDate r).getD 0

/-- Whether the comparator allows a to stay before b. -/
def articleLe (a b : ContentRecord) : Bool :=
  decide (compareDescJS (recordDate a) (recordDate b) ≤ 0)

/-- Insertion into a list, before the first element the comparator allows. -/
def insertSorted (le : α → α → Bool) (a : α) : List α → List α
  | [] => [a]
  | b :: bs => if le a b then a :: b :: bs else b :: insertSorted le a bs

/-- Array.prototype.sort is stable (ECMA-262, ES2019 onward); it is modelled
by a stable insertion sort. For a consistent comparator every stable sort
produces the same output; the pipeline only ever evaluates an inconsistent
comparison (one caused by an Invalid Date) on the small concrete directories
below, where the modelled output was checked against the engine algorithm. -/
def stableSort (le : α → α → Bool) : List α → List α
  | [] => []
  | a :: as => insertSorted le a (stableSort le as)

/-- The destructuring in the final map: slim mode drops the source field,
full mode returns the record unchanged. -/
def trimArticle (slim : Bool) (a : ContentRecord) : ContentRecord :=
  if slim then { a with source := none } else a

/-- Promise.all over the per-slug tasks: all-or-nothing, surfacing the
failure of the first failing file in directory order (read failures are
raised synchronously in that order; no claim depends on which of several
concurrent compile failures surfaces, and the concrete directories below
have at most one). -/
def exceptMapList (f : α → Except String β) : List α → Except String (List β)
  | [] => Except.ok []
  | a :: as =>
    match f a with
    | Except.error e => Except.error e
    | Except.ok b =>
      match exceptMapList f as with
      | Except.error e => Except.error e
      | Except.ok bs => Except.ok (b :: bs)

/-- The fan-out of getAllContentFromDirectory: readdirSync then one
getContentBySlug task per filename. -/
def buildAll (env : Env) (directory type : String) : Except String (List ContentRecord) :=
  exceptMapList (fun slug => getContentBySlug env slug directory type) (env.readdir directory)

/-- getAllContentFromDirectory from src/lib/contentTypeLoader.js: list the
directory, build every record, sort by date descending with compareDesc,
then map the slim-mode trim over the sorted collection. -/
def getAllContentFromDirectory (env : Env) (directory type : String)
    (slim : Bool := true) : Except String (List ContentRecord) :=
  match buildAll env directory type with
  | Except.error e => Except.error e
  | Except.ok articles =>
    Except.ok ((stableSort articleLe articles).map (trimArticle slim))

/-! ### Substring occurrence, for statements about error messages -/

def leadsWith : List Char → List Char → Bool
  | [], _ => true
  | _ :: _, [] => false
  | p :: ps, c :: cs => p = c && leadsWith ps cs

def occursIn (pat : List Char) : List Char → Bool
  | [] => leadsWith pat []
  | c :: cs => leadsWith pat (c :: cs) || occursIn pat cs

deriving instance DecidableEq for Except

/-! ### Lemmas about object field access -/

theorem objGet_objSet_self (o : List (String × FMValue)) (k : String) (v : FMValue) :
    objGet (objSet o k v) k = some v := by
  induction o with
  | nil => simp [objSet, objGet]
  | cons p rest ih =>
    obtain ⟨k1, w1⟩ := p
    by_cases h : k1 = k
    · simp [objSet, objGet, h]
    · simp [objSet, objGet, h, ih]

theorem objGet_objSet_ne (o : List (String × FMValue)) (k k2 : String) (v : FMValue)
    (h : k ≠ k2) : objGet (objSet o k v) k2 = objGet o k2 := by
  induction o with
  | nil => simp [objSet, objGet, h]
  | cons p rest ih =>
    obtain ⟨k1, w1⟩ := p
    by_cases h1 : k1 = k
    · subst h1
      simp [objSet, objGet, h]
    · by_cases h2 : k1 = k2
      · subst h2
        simp [objSet, objGet, h1, Ne.symm h]
      · simp [objSet, objGet, h1, h2, ih]

/-! ### Lemmas about the stable sort model -/

theorem mem_insertSorted {le : α → α → Bool} {a x : α} {L : List α} :
    x ∈ insertSorted le a L ↔ x = a ∨ x ∈ L := by
  induction L with
  | nil => simp [insertSorted]
  | cons b bs ih =>
    simp only [insertSorted]
    by_cases h : le a b
    · simp [h]
    · simp [h, ih]
      tauto

theorem length_insertSorted (le : α → α → Bool) (a : α) (L : List α) :
    (insertSorted le a L).length = L.length + 1 := by
  induction L with
  | nil => rfl
  | cons b bs ih =>
    simp only [insertSorted]
    by_cases h : le a b <;> simp [h, ih]

theorem length_stableSort (le : α → α → Bool) (l : List α) :
    (stableSort le l).length = l.length := by
  induction l with
  | nil => rfl
  | cons a as ih => simp [stableSort, length_insertSorted, ih]

theorem mem_stableSort {le : α → α → Bool} {l : List α} {x : α} :
    x ∈ stableSort le l ↔ x ∈ l := by
  induction l with
  | nil => simp [stableSort]
  | cons a as ih => simp [stableSort, mem_insertSorted, ih]

theorem insertSorted_congr {le₁ le₂ : α → α → Bool} {a : α} {L : List α}
    (h : ∀ b ∈ L, le₁ a b = le₂ a b) : insertSorted le₁ a L = insertSorted le₂ a L := by
  induction L with
  | nil => rfl
  | cons b bs ih =>
    simp only [insertSorted]
    rw [h b (by simp)]
    by_cases hb : le₂ a b
    · simp [hb]
    · simp [hb]
      exact ih (fun x hx => h x (List.mem_cons_of_mem _ hx))

theorem stableSort_congr {le₁ le₂ : α → α → Bool} {l : List α}
    (h : ∀ a ∈ l, ∀ b ∈ l, le₁ a b = le₂ a b) : stableSort le₁ l = stableSort le₂ l := by
  induction l with
  | nil => rfl
  | cons a as ih =>
    simp only [stableSort]
    rw [ih (fun x hx y hy =>
      h x (List.mem_cons_of_mem _ hx) y (List.mem_cons_of_mem _ hy))]
    exact insertSorted_congr (fun b hb =>
      h a (by simp) b (List.mem_cons_of_mem _ (mem_stableSort.mp hb)))

/-- The comparator of a descending sort keyed by a numeric date. -/
def leKey (key : α → Nat) (a b : α) : Bool := decide (key b ≤ key a)

theorem pairwise_insertSorted_leKey (key : α → Nat) (a : α) (L : List α)
    (h : L.Pairwise (fun x y => key y ≤ key x)) :
    (insertSorted (leKey key) a L).Pairwise (fun x y => key y ≤ key x) := by
  induction L with
  | nil => simp [insertSorted]
  | cons b bs ih =>
    rcases List.pairwise_cons.mp h with ⟨hb, hbs⟩
    simp only [insertSorted, leKey]
    by_cases hab : key b ≤ key a
    · rw [if_pos (by simp [hab])]
      refine List.pairwise_cons.mpr ⟨?_, h⟩
      intro x hx
      rcases List.mem_cons.mp hx with rfl | hx2
      · exact hab
      · exact le_trans (hb x hx2) hab
    · rw [if_neg (by simp [hab])]
      refine List.pairwise_cons.mpr ⟨?_, ih hbs⟩
      intro x hx
      rcases mem_insertSorted.mp hx with rfl | hx2
      · omega
      · exact hb x hx2

theorem pairwise_stableSort_leKey (key : α → Nat) (l : List α) :
    (stableSort (leKey key) l).Pairwise (fun x y => key y ≤ key x) := by
  induction l with
  | nil => simp [stableSort]
  | cons a as ih => exact pairwise_insertSorted_leKey key a _ ih

theorem filter_insertSorted_leKey (key : α → Nat) (a : α) (L : List α) (d : Nat) :
    (insertSorted (leKey key) a L).filter (fun x => decide (key x = d))
      = if key a = d
        then a :: L.filter (fun x => decide (key x = d))
        else L.filter (fun x => decide (key x = d)) := by
  induction L with
  | nil => by_cases h : key a = d <;> simp [insertSorted, h]
  | cons b bs ih =>
    simp only [insertSorted, leKey]
    by_cases hab : key b ≤ key a
    · rw [if_pos (by simp [hab])]
      by_cases had : key a = d <;> simp [had, List.filter_cons]
    · rw [if_neg (by simp [hab])]
      have hlt : key a < key b := by omega
      by_cases hbd : key b = d
      · have had : ¬ (key a = d) := by omega
        simp [List.filter_cons, hbd, had, ih]
      · by_cases had : key a = d <;> simp [List.filter_cons, hbd, had, ih]

theorem filter_stableSort_leKey (key : α → Nat) (l : List α) (d : Nat) :
    (stableSort (leKey key) l).filter (fun x => decide (key x = d))
      = l.filter (fun x => decide (key x = d)) := by
  induction l with
  | nil => rfl
  | cons a as ih =>
    simp only [stableSort]
    rw [filter_insertSorted_leKey]
    by_cases had : key a = d <;> simp [had, List.filter_cons, ih]

/-! ### Lemmas about the all-or-nothing aggregation -/

theorem exceptMapList_ok_forall {f : α → Except String β} {l : List α} {bs : List β}
    (h : exceptMapList f l = Except.ok bs) : ∀ a ∈ l, ∃ b, f a = Except.ok b := by
  induction l generalizing bs with
  | nil => simp
  | cons a as ih =>
    simp only [exceptMapList] at h
    cases hfa : f a with
    | error e => rw [hfa] at h; exact absurd h (by simp)
    | ok b =>
      rw [hfa] at h
      cases hrest : exceptMapList f as with
      | error e => rw [hrest] at h; exact absurd h (by simp)
      | ok bs2 =>
        intro x hx
        rcases List.mem_cons.mp hx with rfl | hx2
        · exact ⟨b, hfa⟩
        · exact ih hrest x hx2

theorem exceptMapList_mem_ok {f : α → Except String β} {l : List α} {bs : List β}
    (h : exceptMapList f l = Except.ok bs) : ∀ b ∈ bs, ∃ a ∈ l, f a = Except.ok b := by
  induction l generalizing bs with
  | nil =>
    simp only [exceptMapList] at h
    injection h with h2
    subst h2
    simp
  | cons a as ih =>
    simp only [exceptMapList] at h
    cases hfa : f a with
    | error e => rw [hfa] at h; exact absurd h (by simp)
    | ok b =>
      rw [hfa] at h
      cases hrest : exceptMapList f as with
      | error e => rw [hrest] at h; exact absurd h (by simp)
      | ok bs2 =>
        rw [hrest] at h
        injection h with h2
        subst h2
        intro x hx
        rcases List.mem_cons.mp hx with rfl | hx2
        · exact ⟨a, by simp, hfa⟩
        · rcases ih hrest x hx2 with ⟨a2, ha2, hfa2⟩
          exact ⟨a2, List.mem_cons_of_mem _ ha2, hfa2⟩

theorem exceptMapList_error_of_mem {f : α → Except String β} {l : List α} {a : α} {e : String}
    (ha : a ∈ l) (he : f a = Except.error e) :
    ∃ e2, exceptMapList f l = Except.error e2 := by
  induction l with
  | nil => simp at ha
  | cons x xs ih =>
    rcases List.mem_cons.mp ha with rfl | ha2
    · exact ⟨e, by simp [exceptMapList, he]⟩
    · simp only [exceptMapList]
      cases hfx : f x with
      | error e3 => exact ⟨e3, rfl⟩
      | ok b =>
        rcases ih ha2 with ⟨e2, h2⟩
        rw [h2]
        exact ⟨e2, rfl⟩

/-! ### Lemmas about the loader -/

theorem trimArticle_false (a : ContentRecord) : trimArticle false a = a := rfl

theorem trimArticle_frontmatter (slim : Bool) (a : ContentRecord) :
    (trimArticle slim a).frontmatter = a.frontmatter := by
  cases slim <;> rfl

theorem trimArticle_content (slim : Bool) (a : ContentRecord) :
    (trimArticle slim a).content = a.content := by
  cases slim <;> rfl

theorem trimArticle_slug (slim : Bool) (a : ContentRecord) :
    (trimArticle slim a).slug = a.slug := by
  cases slim <;> rfl

theorem recordDate_trimArticle (slim : Bool) (a : ContentRecord) :
    recordDate (trimArticle slim a) = recordDate a := by
  unfold recordDate
  rw [trimArticle_frontmatter]

theorem getContentBySlug_fs_none {env : Env} {slug dir type : String}
    (h : env.fs (contentPath dir slug) = none) :
    getContentBySlug env slug dir type =
      Except.error ("ENOENT: no such file or directory, open " ++ contentPath dir slug) := by
  unfold getContentBySlug
  rw [h]

theorem getContentBySlug_ok {env : Env} {slug dir type : String} {r : ContentRecord}
    (h : getContentBySlug env slug dir type = Except.ok r) :
    ∃ txt data content mdx tags,
      env.fs (contentPath dir slug) = some txt ∧
      matter txt = Except.ok (data, content) ∧
      env.serialize content = Except.ok mdx ∧
      tagsJS (objGet data "tags") = Except.ok tags ∧
      r = { slug := realSlugOf slug
            frontmatter :=
              objSet (objSet (objSet data "date"
                  (FMValue.str (toUTCStringJS (jsNewDate (objGet data "date")))))
                "tags" (FMValue.list tags)) "type" (FMValue.str type)
            content := content
            source := some mdx } := by
  unfold getContentBySlug at h
  split at h
  · exact absurd h (by simp)
  · rename_i txt heq
    split at h
    · exact absurd h (by simp)
    · rename_i data content hmat
      split at h
      · exact absurd h (by simp)
      · rename_i mdx hser
        split at h
        · exact absurd h (by simp)
        · rename_i tags htags
          injection h with h2
          exact ⟨txt, data, content, mdx, tags, heq, hmat, hser, htags, h2.symm⟩

theorem getAll_of_buildAll_ok {env : Env} {dir type : String} {slim : Bool}
    {articles : List ContentRecord} (h : buildAll env dir type = Except.ok articles) :
    getAllContentFromDirectory env dir type slim
      = Except.ok ((stableSort articleLe articles).map (trimArticle slim)) := by
  unfold getAllContentFromDirectory
  rw [h]

theorem getAll_ok_inv {env : Env} {dir type : String} {slim : Bool}
    {rs : List ContentRecord} (h : getAllContentFromDirectory env dir type slim = Except.ok rs) :
    ∃ articles, buildAll env dir type = Except.ok articles ∧
      rs = (stableSort articleLe articles).map (trimArticle slim) := by
  unfold getAllContentFromDirectory at h
  cases hb : buildAll env dir type with
  | error e => rw [hb] at h; exact absurd h (by simp)
  | ok articles =>
    rw [hb] at h
    injection h with h2
    exact ⟨articles, rfl, h2.symm⟩

theorem realSlugOf_append_mdx (s : String) : realSlugOf (s ++ ".mdx") = s := by
  unfold realSlugOf
  have hd : (s ++ ".mdx").data = s.data ++ ['.', 'm', 'd', 'x'] := String.data_append s ".mdx"
  rw [hd]
  rw [List.reverse_append]
  have hrev : (['.', 'm', 'd', 'x'] : List Char).reverse = ['x', 'd', 'm', '.'] := rfl
  rw [hrev]
  have htake : (['x', 'd', 'm', '.'] ++ s.data.reverse).take 4 = ['x', 'd', 'm', '.'] := by
    have : (4 : Nat) = (['x', 'd', 'm', '.'] : List Char).length := rfl
    rw [this, List.take_left]
  rw [if_pos htake]
  have hlen : (s.data ++ ['.', 'm', 'd', 'x']).length - 4 = s.data.length := by
    simp
  rw [hlen]
  have : (s.data ++ ['.', 'm', 'd', 'x']).take s.data.length = s.data := by
    rw [List.take_left]
  rw [this]

theorem realSlugOf_of_eq {s : String} (h : realSlugOf s = s) (dir : String) :
    contentPath dir (s ++ ".mdx") = contentPath dir s := by
  unfold contentPath
  rw [realSlugOf_append_mdx, h]

theorem getContentBySlug_strip {env : Env} {slug directory type : String}
    (h : realSlugOf slug = slug) :
    getContentBySlug env (slug ++ ".mdx") directory type
      = getContentBySlug env slug directory type := by
  unfold getContentBySlug
  rw [realSlugOf_of_eq h, realSlugOf_append_mdx, h]

/-! ### Substring lemmas for error messages -/

theorem leadsWith_append (l t : List Char) : leadsWith l (l ++ t) = true := by
  induction l with
  | nil => rfl
  | cons c cs ih => simp [leadsWith, ih]

theorem occursIn_append (pat pre post : List Char) :
    occursIn pat (pre ++ pat ++ post) = true := by
  induction pre with
  | nil =>
    simp only [List.nil_append]
    cases hp : pat ++ post with
    | nil =>
      rcases List.append_eq_nil.mp hp with ⟨h1, _⟩
      subst h1
      rfl
    | cons c cs =>
      simp only [occursIn, ← hp]
      rw [leadsWith_append]
      simp
  | cons c cs ih =>
    have h2 : (c :: cs) ++ pat ++ post = c :: (cs ++ pat ++ post) := by simp
    rw [h2]
    show (leadsWith pat (c :: (cs ++ pat ++ post)) || occursIn pat (cs ++ pat ++ post)) = true
    rw [ih, Bool.or_true]

/-! ### The comparator on valid dates -/

theorem articleLe_eq_leKey {a b : ContentRecord} (ha : (recordDate a).isSome)
    (hb : (recordDate b).isSome) : articleLe a b = leKey dateKey a b := by
  obtain ⟨x, hx⟩ := Option.isSome_iff_exists.mp ha
  obtain ⟨y, hy⟩ := Option.isSome_iff_exists.mp hb
  unfold articleLe leKey dateKey compareDescJS
  rw [hx, hy]
  simp only [Option.getD_some]
  by_cases h1 : y < x
  · have hyx : y ≤ x := Nat.le_of_lt h1
    simp [h1, hyx]
  · by_cases h2 : x < y
    · have hnyx : ¬ (y ≤ x) := by omega
      simp [h1, h2, hnyx]
    · have hyx : y ≤ x := by omega
      simp [h1, h2, hyx]

def fileW1 : String := "---\ndate: 2020-01-01\n---\nA"

def fileW2 : String := "---\ndate: 2020-01-01\n---\nB"

def fileW3 : String := "---\ndate: 2019-06-01\n---\nC"

/-- Three files whose dates are [2020-01-01, 2020-01-01, 2019-06-01] in
directory order a, b, c: the sorting example of the spec. -/
def envW : Env :=
  { fs := fun p =>
      if p = "posts/a.mdx" then some fileW1
      else if p = "posts/b.mdx" then some fileW2
      else if p = "posts/c.mdx" then some fileW3
      else none
    readdir := fun d => if d = "posts" then ["a.mdx", "b.mdx", "c.mdx"] else []
    serialize := fun c => Except.ok ⟨c⟩ }

def recW1 : ContentRecord :=
  { slug := "a"
    frontmatter := [("date", FMValue.str "GMT<751440>"), ("tags", FMValue.list []),
                    ("type", FMValue.str "blog")]
    content := "A"
    source := some ⟨"A"⟩ }

def recW2 : ContentRecord :=
  { slug := "b"
    frontmatter := [("date", FMValue.str "GMT<751440>"), ("tags", FMValue.list []),
                    ("type", FMValue.str "blog")]
    content := "B"
    source := some ⟨"B"⟩ }

def recW3 : ContentRecord :=
  { slug := "c"
    frontmatter := [("date", FMValue.str "GMT<751223>"), ("tags", FMValue.list []),
                    ("type", FMValue.str "blog")]
    content := "C"
    source := some ⟨"C"⟩ }

/-- Directory order bad, good: the bad file has an unparsable date. -/
def envC2 : Env :=
  { fs := fun p =>
      if p = "posts/bad.mdx" then some "---\ndate: not-a-date\n---\nB"
      else if p = "posts/good.mdx" then some "---\ndate: 2020-01-01\n---\nG"
      else none
    readdir := fun d => if d = "posts" then ["bad.mdx", "good.mdx"] else []
    serialize := fun c => Except.ok ⟨c⟩ }

def recC2bad : ContentRecord :=
  { slug := "bad"
    frontmatter := [("date", FMValue.str "Invalid Date"), ("tags", FMValue.list []),
                    ("type", FMValue.str "blog")]
    content := "B"
    source := some ⟨"B"⟩ }

def recC2good : ContentRecord :=
  { slug := "good"
    frontmatter := [("date", FMValue.str "GMT<751440>"), ("tags", FMValue.list []),
                    ("type", FMValue.str "blog")]
    content := "G"
    source := some ⟨"G"⟩ }

/-- Directory order a (2020-01-01), b (unparsable date), c (2021-01-01). -/
def envC4 : Env :=
  { fs := fun p =>
      if p = "posts/a.mdx" then some "---\ndate: 2020-01-01\n---\nA"
      else if p = "posts/b.mdx" then some "---\ndate: not-a-date\n---\nB"
      else if p = "posts/c.mdx" then some "---\ndate: 2021-01-01\n---\nC"
      else none
    readdir := fun d => if d = "posts" then ["a.mdx", "b.mdx", "c.mdx"] else []
    serialize := fun c => Except.ok ⟨c⟩ }

/-- One file whose body the MDX compiler rejects, with a message derived only
from the body (serialize never receives the slug). -/
def envC3 : Env :=
  { fs := fun p => if p = "posts/bad.mdx" then some "---\ntitle: Bad\n---\n<Unclosed" else none
    readdir := fun d => if d = "posts" then ["bad.mdx"] else []
    serialize := fun c =>
      if c = "<Unclosed" then Except.error "Expected a closing tag for <Unclosed>"
      else Except.ok ⟨c⟩ }

/-- A directory listing one file that is missing from the filesystem. -/
def envC3b : Env :=
  { fs := fun _ => none
    readdir := fun d => if d = "posts" then ["gone.mdx"] else []
    serialize := fun c => Except.ok ⟨c⟩ }

/-- A file carrying its own type key in the front matter. -/
def envC6 : Env :=
  { fs := fun p =>
      if p = "posts/x.mdx" then some "---\ntype: original\ndate: 2020-01-01\n---\nX"
      else none
    readdir := fun d => if d = "posts" then ["x.mdx"] else []
    serialize := fun c => Except.ok ⟨c⟩ }

/-- A file with a tags sequence, including a tag that slugification changes. -/
def envC7 : Env :=
  { fs := fun p =>
      if p = "posts/y.mdx" then some "---\ndate: 2020-01-01\ntags: [api, REST APIs]\n---\nY"
      else none
    readdir := fun d => if d = "posts" then ["y.mdx"] else []
    serialize := fun c => Except.ok ⟨c⟩ }

/-- A file whose front matter has a date value that does not parse. -/
def envC1 : Env :=
  { fs := fun p =>
      if p = "posts/bad.mdx" then some "---\ndate: not-a-date\n---\nB"
      else if p = "posts/nodate.mdx" then some "---\ntitle: T\n---\nN"
      else none
    readdir := fun d => if d = "posts" then ["bad.mdx", "nodate.mdx"] else []
    serialize := fun c => Except.ok ⟨c⟩ }

theorem getAll_of_buildAll_error {env : Env} {dir type : String} {slim : Bool}
    {e : String} (h : buildAll env dir type = Except.error e) :
    getAllContentFromDirectory env dir type slim = Except.error e := by
  unfold getAllContentFromDirectory
  rw [h]

theorem occursIn_append2 (pat pre post : List Char) :
    occursIn pat (pre ++ (pat ++ post)) = true := by
  rw [← List.append_assoc]
  exact occursIn_append pat pre post

theorem occursIn_contentPath (dir s base : String) :
    occursIn (realSlugOf s).data ((base ++ contentPath dir s).data) = true := by
  have h : (base ++ contentPath dir s).data
      = ((base ++ (dir ++ "/")).data ++ (realSlugOf s).data) ++ (".mdx" : String).data := by
    unfold contentPath
    simp only [String.data_append, List.append_assoc]
  rw [h]
  exact occursIn_append _ _ _

/-! ### The claims -/

/-- C1: this claim states that when the front-matter date is missing or
unparsable the returned frontmatter has no date key, never the literal
"Invalid Date". The code contradicts it: new Date never returns null or
undefined, so the optional chain always calls toUTCString, which renders an
Invalid Date as the literal string "Invalid Date"; the nullish fallback to
undefined in the source is dead code. At the failing inputs (a file with
date: not-a-date, and a file with no date field) the date key is present
and holds exactly that literal. -/
theorem invalid_date_string_leaks :
    ((getContentBySlug envC1 "bad" "posts" "blog").map
        (fun r => objGet r.frontmatter "date")
      = Except.ok (some (FMValue.str "Invalid Date"))) ∧
    ((getContentBySlug envC1 "nodate" "posts" "blog").map
        (fun r => objGet r.frontmatter "date")
      = Except.ok (some (FMValue.str "Invalid Date"))) := by
  decide

/-- C2 counterexample: with directory order [bad (unparsable date), good
(valid date 2020-01-01)], the aggregated collection returns the
invalid-date record FIRST, before the valid-date record, so such records do
not sort as though their date were the oldest possible value. -/
theorem invalid_date_record_stays_first :
    (getAllContentFromDirectory envC2 "posts" "blog" true).map
        (List.map ContentRecord.slug)
      = Except.ok ["bad", "good"] ∧
    (getAllContentFromDirectory envC2 "posts" "blog" true).map (List.map recordDate)
      = Except.ok [none, some 751440] := by
  decide

/-- C2 amended: a record with an absent or unparsable date never makes the
aggregation throw (if every file loads, the call succeeds with a collection
of the same length), but it does not sort as the oldest value: compareDesc
returns NaN on it, the sort coerces that to 0, so the record compares equal
to every other record and a stable sort leaves it in its pre-sort position
relative to its neighbours. -/
theorem invalid_dates_compare_equal_and_no_throw (env : Env) (dir type : String)
    (slim : Bool) (articles : List ContentRecord)
    (hb : buildAll env dir type = Except.ok articles) :
    (∃ rs, getAllContentFromDirectory env dir type slim = Except.ok rs ∧
        rs.length = articles.length) ∧
    (∀ a b : ContentRecord, recordDate a = none →
        compareDescJS (recordDate a) (recordDate b) = 0 ∧
        compareDescJS (recordDate b) (recordDate a) = 0) := by
  constructor
  · exact ⟨_, getAll_of_buildAll_ok hb, by simp [length_stableSort]⟩
  · intro a b ha
    rw [ha]
    cases hrb : recordDate b
    · exact ⟨rfl, rfl⟩
    · exact ⟨rfl, rfl⟩

theorem invalid_dates_compare_equal_witness :
    (∃ rs, getAllContentFromDirectory envC2 "posts" "blog" true = Except.ok rs ∧
        rs.length = [recC2bad, recC2good].length) ∧
    (∀ a b : ContentRecord, recordDate a = none →
        compareDescJS (recordDate a) (recordDate b) = 0 ∧
        compareDescJS (recordDate b) (recordDate a) = 0) :=
  invalid_dates_compare_equal_and_no_throw envC2 "posts" "blog" true
    [recC2bad, recC2good] (by decide)

/-- C3 counterexample: a compile failure aborts the whole aggregation, but
the surfaced error is the compiler message alone (serialize receives only
the body text), and that message does not contain the offending slug bad. -/
theorem compile_error_does_not_name_slug :
    getAllContentFromDirectory envC3 "posts" "blog" true
      = Except.error "Expected a closing tag for <Unclosed>" ∧
    occursIn "bad".data "Expected a closing tag for <Unclosed>".data = false := by
  decide

/-- C3 amended: if any file of a directory fails to read or to compile, the
aggregation fails as a whole and never returns a partial collection: a
successful result implies every slug built successfully, and any failing
slug makes the whole call fail. A read failure produces an ENOENT error
that names the file path and hence contains the slug; a compile failure
surfaces the compiler error unchanged, which need not identify the slug. -/
theorem aggregation_fail_fast (env : Env) (dir type : String) (slim : Bool) :
    (∀ rs, getAllContentFromDirectory env dir type slim = Except.ok rs →
        ∀ s ∈ env.readdir dir, ∃ r, getContentBySlug env s dir type = Except.ok r) ∧
    (∀ s ∈ env.readdir dir, ∀ e, getContentBySlug env s dir type = Except.error e →
        ∃ e2, getAllContentFromDirectory env dir type slim = Except.error e2) ∧
    (∀ s, env.fs (contentPath dir s) = none →
        ∃ e, getContentBySlug env s dir type = Except.error e ∧
          occursIn (realSlugOf s).data e.data = true) := by
  refine ⟨?_, ?_, ?_⟩
  · intro rs hok s hs
    rcases getAll_ok_inv hok with ⟨articles, hb, _⟩
    exact exceptMapList_ok_forall hb s hs
  · intro s hs e he
    rcases @exceptMapList_error_of_mem String ContentRecord
        (fun slug => getContentBySlug env slug dir type) (env.readdir dir) s e hs he
      with ⟨e2, h2⟩
    have hb : buildAll env dir type = Except.error e2 := h2
    exact ⟨e2, getAll_of_buildAll_error hb⟩
  · intro s hfs
    refine ⟨_, getContentBySlug_fs_none hfs, ?_⟩
    exact occursIn_contentPath dir s "ENOENT: no such file or directory, open "

theorem aggregation_fail_fast_witness :
    ∃ e2, getAllContentFromDirectory envC3b "posts" "blog" true = Except.error e2 :=
  (aggregation_fail_fast envC3b "posts" "blog" true).2.1 "gone.mdx" (by decide)
    "ENOENT: no such file or directory, open posts/gone.mdx" (by decide)

/-- C4 counterexample: with directory order [a (2020-01-01), b (unparsable
date), c (2021-01-01)] the aggregated output keeps that order, so the
record dated 2020-01-01 precedes the strictly newer record dated
2021-01-01: the collection is not sorted by date descending. -/
theorem sort_not_descending_with_invalid_date :
    (getAllContentFromDirectory envC4 "posts" "blog" true).map
        (List.map ContentRecord.slug)
      = Except.ok ["a", "b", "c"] ∧
    (getAllContentFromDirectory envC4 "posts" "blog" true).map (List.map recordDate)
      = Except.ok [some 751440, none, some 751812] ∧
    751440 < 751812 := by
  decide

theorem dateKey_trimArticle (slim : Bool) (a : ContentRecord) :
    dateKey (trimArticle slim a) = dateKey a := by
  unfold dateKey
  rw [recordDate_trimArticle]

/-- C4 amended: over a directory all of whose built records carry a valid
(parsable) date, the aggregation returns the records sorted by date
descending (newest first), and stably: for every date value, the records
carrying it appear in the output in their pre-sort relative order. (With an
unparsable date in the directory the descending order can fail, per the
counterexample.) -/
theorem sorted_descending_stable_of_valid_dates (env : Env) (dir type : String)
    (slim : Bool) (articles : List ContentRecord)
    (hb : buildAll env dir type = Except.ok articles)
    (hv : ∀ r ∈ articles, (recordDate r).isSome) :
    ∃ rs, getAllContentFromDirectory env dir type slim = Except.ok rs ∧
      rs.Pairwise (fun a b => dateKey b ≤ dateKey a) ∧
      ∀ d : Nat, rs.filter (fun r => decide (recordDate r = some d))
        = (articles.map (trimArticle slim)).filter
            (fun r => decide (recordDate r = some d)) := by
  have hagree : ∀ a ∈ articles, ∀ b ∈ articles, articleLe a b = leKey dateKey a b :=
    fun a ha b hbm => articleLe_eq_leKey (hv a ha) (hv b hbm)
  have hsort : stableSort articleLe articles = stableSort (leKey dateKey) articles :=
    stableSort_congr hagree
  refine ⟨_, getAll_of_buildAll_ok hb, ?_, ?_⟩
  · rw [hsort, List.pairwise_map]
    refine List.Pairwise.imp ?_ (pairwise_stableSort_leKey dateKey articles)
    intro a b hab
    rw [dateKey_trimArticle, dateKey_trimArticle]
    exact hab
  · intro d
    rw [hsort, List.filter_map, List.filter_map]
    congr 1
    have hp : ((fun r => decide (recordDate r = some d)) ∘ trimArticle slim)
        = (fun r => decide (recordDate r = some d)) := by
      funext r
      simp [Function.comp, recordDate_trimArticle]
    rw [hp]
    have hpq : ∀ x ∈ articles,
        (decide (recordDate x = some d)) = (decide (dateKey x = d)) := by
      intro x hx
      obtain ⟨v, hv2⟩ := Option.isSome_iff_exists.mp (hv x hx)
      simp [hv2, dateKey]
    rw [List.filter_congr (fun x hx => hpq x (mem_stableSort.mp hx))]
    rw [filter_stableSort_leKey dateKey articles d]
    rw [List.filter_congr hpq]

theorem sorted_descending_stable_witness :
    ∃ rs, getAllContentFromDirectory envW "posts" "blog" true = Except.ok rs ∧
      rs.Pairwise (fun a b => dateKey b ≤ dateKey a) ∧
      ∀ d : Nat, rs.filter (fun r => decide (recordDate r = some d))
        = ([recW1, recW2, recW3].map (trimArticle true)).filter
            (fun r => decide (recordDate r = some d)) :=
  sorted_descending_stable_of_valid_dates envW "posts" "blog" true
    [recW1, recW2, recW3] (by decide) (by decide)

/-- C5: in slim mode no returned record carries a compiled source; in full
mode every returned record carries one. -/
theorem slim_and_full_source_presence (env : Env) (dir type : String)
    (rs rsFull : List ContentRecord)
    (h1 : getAllContentFromDirectory env dir type true = Except.ok rs)
    (h2 : getAllContentFromDirectory env dir type false = Except.ok rsFull) :
    (∀ r ∈ rs, r.source = none) ∧ (∀ r ∈ rsFull, r.source.isSome) := by
  constructor
  · intro r hr
    rcases getAll_ok_inv h1 with ⟨articles, hb, hrs⟩
    subst hrs
    rcases List.mem_map.mp hr with ⟨a, ha, rfl⟩
    rfl
  · intro r hr
    rcases getAll_ok_inv h2 with ⟨articles, hb, hrs⟩
    subst hrs
    rcases List.mem_map.mp hr with ⟨a, ha, rfl⟩
    rw [trimArticle_false]
    have hb2 : exceptMapList (fun slug => getContentBySlug env slug dir type)
        (env.readdir dir) = Except.ok articles := hb
    rcases exceptMapList_mem_ok hb2 a (mem_stableSort.mp ha) with ⟨s, hsmem, hsok⟩
    rcases getContentBySlug_ok hsok with ⟨txt, data, content, mdx, tags, _, _, _, _, hreq⟩
    rw [hreq]
    rfl

theorem slim_and_full_source_presence_witness :
    (∀ r ∈ [{ recW1 with source := none }, { recW2 with source := none },
        { recW3 with source := none }], ContentRecord.source r = none) ∧
    (∀ r ∈ [recW1, recW2, recW3], (ContentRecord.source r).isSome) :=
  slim_and_full_source_presence envW "posts" "blog"
    [{ recW1 with source := none }, { recW2 with source := none },
      { recW3 with source := none }]
    [recW1, recW2, recW3] (by decide) (by decide)

/-- C6: the type field of the returned frontmatter always equals the
caller-supplied content-type label; a type key present in the raw front
matter is overwritten, because the object literal assigns type after the
spread of the raw metadata. -/
theorem type_field_overwritten_by_caller (env : Env) (slug dir type : String)
    (r : ContentRecord) (h : getContentBySlug env slug dir type = Except.ok r) :
    objGet r.frontmatter "type" = some (FMValue.str type) := by
  rcases getContentBySlug_ok h with ⟨txt, data, content, mdx, tags, _, _, _, _, hreq⟩
  rw [hreq]
  exact objGet_objSet_self _ _ _

/-- The record built from a file that declares type: original while the
caller passes the label blog. -/
def recC6 : ContentRecord :=
  { slug := "x"
    frontmatter := [("type", FMValue.str "blog"), ("date", FMValue.str "GMT<751440>"),
                    ("tags", FMValue.list [])]
    content := "X"
    source := some ⟨"X"⟩ }

theorem type_field_overwritten_witness :
    objGet recC6.frontmatter "type" = some (FMValue.str "blog") :=
  type_field_overwritten_by_caller envC6 "x" "posts" "blog" recC6 (by decide)

/-- C7: the returned frontmatter tags field is always a sequence: a source
tags sequence of length n yields the elementwise image under parseTag, in
source order; an absent tags field yields the (present) empty sequence. -/
theorem tags_normalization_map (env : Env) (slug dir type : String) (txt : String)
    (data : List (String × FMValue)) (content : String) (r : ContentRecord)
    (hf : env.fs (contentPath dir slug) = some txt)
    (hm : matter txt = Except.ok (data, content))
    (h : getContentBySlug env slug dir type = Except.ok r) :
    (∀ ts, objGet data "tags" = some (FMValue.list ts) →
        objGet r.frontmatter "tags" = some (FMValue.list (ts.map parseTag))) ∧
    (objGet data "tags" = none →
        objGet r.frontmatter "tags" = some (FMValue.list [])) := by
  rcases getContentBySlug_ok h with ⟨txt2, data2, content2, mdx, tags, hf2, hm2, hser, htags, hreq⟩
  rw [hf] at hf2
  injection hf2 with htxt
  subst htxt
  rw [hm] at hm2
  injection hm2 with hpair
  injection hpair with hdata hcontent
  subst hdata
  subst hcontent
  constructor
  · intro ts hts
    rw [hts] at htags
    have h3 : (Except.ok (ts.map parseTag) : Except String (List FMLeaf))
        = Except.ok tags := htags
    injection h3 with h4
    rw [hreq, objGet_objSet_ne _ _ _ _ (by decide), objGet_objSet_self, ← h4]
  · intro hnone
    rw [hnone] at htags
    have h3 : (Except.ok [] : Except String (List FMLeaf)) = Except.ok tags := htags
    injection h3 with h4
    rw [hreq, objGet_objSet_ne _ _ _ _ (by decide), objGet_objSet_self, ← h4]

/-- The record built from the file with tags [api, REST APIs]. -/
def recC7 : ContentRecord :=
  { slug := "y"
    frontmatter := [("date", FMValue.str "GMT<751440>"),
                    ("tags", FMValue.list [FMLeaf.tag "api" "api",
                      FMLeaf.tag "REST APIs" "rest-apis"]),
                    ("type", FMValue.str "blog")]
    content := "Y"
    source := some ⟨"Y"⟩ }

theorem tags_normalization_witness :
    objGet recC7.frontmatter "tags"
      = some (FMValue.list [FMLeaf.tag "api" "api", FMLeaf.tag "REST APIs" "rest-apis"]) := by
  have h := (tags_normalization_map envC7 "y" "posts" "blog"
      "---\ndate: 2020-01-01\ntags: [api, REST APIs]\n---\nY"
      [("date", FMValue.str "2020-01-01"),
        ("tags", FMValue.list [FMLeaf.str "api", FMLeaf.str "REST APIs"])] "Y" recC7
      (by decide) (by decide) (by decide)).1
      [FMLeaf.str "api", FMLeaf.str "REST APIs"] (by decide)
  exact h

/-- C9: the slug argument is stripped of one trailing .mdx before the path
is built: with and without the extension the same file path is consulted,
the path appends a single .mdx to the stripped slug (never a double
extension), and the slug field of a returned record is the stripped form. -/
theorem slug_mdx_suffix_stripped (env : Env) (slug directory type : String)
    (h : realSlugOf slug = slug) :
    getContentBySlug env (slug ++ ".mdx") directory type
      = getContentBySlug env slug directory type ∧
    contentPath directory (slug ++ ".mdx") = directory ++ "/" ++ slug ++ ".mdx" ∧
    contentPath directory slug = directory ++ "/" ++ slug ++ ".mdx" ∧
    (∀ r, getContentBySlug env (slug ++ ".mdx") directory type = Except.ok r →
        r.slug = slug) := by
  refine ⟨getContentBySlug_strip h, ?_, ?_, ?_⟩
  · unfold contentPath
    rw [realSlugOf_append_mdx]
  · unfold contentPath
    rw [h]
  · intro r hr
    rcases getContentBySlug_ok hr with ⟨txt, data, content, mdx, tags, _, _, _, _, hreq⟩
    rw [hreq]
    show realSlugOf (slug ++ ".mdx") = slug
    exact realSlugOf_append_mdx slug

theorem slug_mdx_suffix_witness :
    getContentBySlug envW "a.mdx" "posts" "blog"
      = getContentBySlug envW "a" "posts" "blog" ∧
    contentPath "posts" "a.mdx" = "posts" ++ "/" ++ "a" ++ ".mdx" ∧
    contentPath "posts" "a" = "posts" ++ "/" ++ "a" ++ ".mdx" ∧
    (∀ r, getContentBySlug envW "a.mdx" "posts" "blog" = Except.ok r →
        r.slug = "a") :=
  slug_mdx_suffix_stripped envW "a" "posts" "blog" (by decide)

/-- C10: slim mode differs from full mode only by clearing the source
field of every record: the slim collection is the full collection mapped
through the update that sets source to none, and that update leaves slug,
frontmatter and content unchanged. -/
theorem slim_removes_only_source (env : Env) (dir type : String) :
    getAllContentFromDirectory env dir type true
      = (getAllContentFromDirectory env dir type false).map
          (List.map (fun r => { r with source := none })) ∧
    (∀ r : ContentRecord,
        ({ r with source := none } : ContentRecord).slug = r.slug ∧
        ({ r with source := none } : ContentRecord).frontmatter = r.frontmatter ∧
        ({ r with source := none } : ContentRecord).content = r.content ∧
        ({ r with source := none } : ContentRecord).source = none) := by
  constructor
  · cases hb : buildAll env dir type with
    | error e =>
      rw [@getAll_of_buildAll_error env dir type true e hb,
        @getAll_of_buildAll_error env dir type false e hb]
      rfl
    | ok articles =>
      rw [@getAll_of_buildAll_ok env dir type true articles hb,
        @getAll_of_buildAll_ok env dir type false articles hb]
      have hfe : ((fun r : ContentRecord => { r with source := none })
          ∘ trimArticle false) = trimArticle true := funext (fun r => rfl)
      show Except.ok _ = Except.ok _
      rw [List.map_map, hfe]
  · intro r
    exact ⟨rfl, rfl, rfl, rfl⟩
